import Mathlib

/-!
Shallow embedding of the libsteg LSB steganography core (steg.go).

Modelling conventions:
* A pixel buffer (`image.RGBA`) is a rectangle `[minX, maxX) x [minY, maxY)`
  together with a raw pixel store `pix : Int → Int → Pixel`.  Go's `At`
  returns the zero colour for out-of-bounds points; `SetRGBA` ignores
  out-of-bounds writes.  Channel values are `Nat`s; real images store
  8-bit channels (captured by the predicate `Valid8`).
* `color.RGBA.RGBA()` returns each 8-bit channel scaled to 16 bits as
  `v | v<<8 = v * 257`; this scaling is kept explicit.
* Go machine-integer conversions are kept explicit: `uint8(x)` is
  `x % 256`, `a / 0x101` is `a / 257`.
* The `for` loops of `embedSecret` and `getSecretString` are compiled
  to structural recursion over their exact iteration counts: a loop
  `for y := lo; y < hi; y++` runs `(hi - lo).toNat` times, and a loop
  `for y := lo; y <= hi; y++` runs `(hi + 1 - lo).toNat` times; the
  count is passed as the recursion argument while `y` advances by one
  per step.  Early `break` is a branch that discards the remaining
  count.
* Go strings are modelled as lists of rune codepoints (`List Nat`);
  `for _, c := range s` iterates runes, and `fmt.Sprintf("%.8b", c)`
  prints the rune in binary using at least 8 digits.
* The candidate text built by `bitsToString` is modelled as the list of
  the byte values passed to `string(tmp)`.  `string(tmp)` encodes the
  rune `tmp`; since the sentinel is pure ASCII and multi-byte UTF-8
  sequences contain no ASCII bytes, searching for the sentinel in the
  rune list is equivalent to Go's byte-wise `strings.Contains`/`Split`.
* The slice expression `bits[i : i+8]` in `bitsToString` reads past the
  end of the accumulated bits when their count is not a multiple of 8
  (an out-of-range slice); `bitsToString` therefore returns an `Option`,
  with `none` for that abnormal case.
-/

set_option maxRecDepth 100000

structure Pixel where
  r : Nat
  g : Nat
  b : Nat
  a : Nat
deriving DecidableEq

/-- A mutable RGBA buffer: bounds plus raw pixel store (`image.RGBA`). -/
structure RGBAImage where
  minX : Int
  minY : Int
  maxX : Int
  maxY : Int
  pix : Int → Int → Pixel

/-- Go `img.At x y`: the stored pixel in bounds, the zero colour outside. -/
def RGBAImage.At (img : RGBAImage) (x y : Int) : Pixel :=
  if img.minX ≤ x ∧ x < img.maxX ∧ img.minY ≤ y ∧ y < img.maxY then
    img.pix x y
  else
    ⟨0, 0, 0, 0⟩

/-- Go `img.SetRGBA x y c`: writes the pixel if `(x, y)` is in bounds. -/
def RGBAImage.SetRGBA (img : RGBAImage) (x y : Int) (c : Pixel) : RGBAImage :=
  if img.minX ≤ x ∧ x < img.maxX ∧ img.minY ≤ y ∧ y < img.maxY then
    { img with pix := fun u v => if u = x ∧ v = y then c else img.pix u v }
  else
    img

/-- All channel values of the raw store fit in 8 bits (true of every
real `image.RGBA`, whose channels are `uint8`s). -/
def Valid8 (img : RGBAImage) : Prop :=
  ∀ x y : Int,
    (img.pix x y).r < 256 ∧ (img.pix x y).g < 256 ∧
      (img.pix x y).b < 256 ∧ (img.pix x y).a < 256

/-- `stopStegConst`: the sentinel `"##STOP_STEG##"` as rune codepoints. -/
def stopSteg : List Nat := [35, 35, 83, 84, 79, 80, 95, 83, 84, 69, 71, 35, 35]

/-- `manipulateLSB(i int, bit int) uint8`: truncate to `uint8`, then
clear the low bit when `bit == 0` and set it otherwise. -/
def manipulateLSB (i : Nat) (bit : Nat) : Nat :=
  let newI := i % 256
  if bit = 0 then newI &&& 254 else newI ||| 1

/-- Binary digits of `n`, most significant first (`fmt.Sprintf("%b")`),
accumulator form; the first argument is fuel (`n` itself suffices since
the value at least halves each step). -/
def natToBinAux : Nat → Nat → List Nat → List Nat
  | _, 0, acc => acc
  | 0, _ + 1, acc => acc
  | fuel + 1, n + 1, acc => natToBinAux fuel ((n + 1) / 2) ((n + 1) % 2 :: acc)

/-- Binary digits of `n`, most significant first; `0` prints as `"0"`. -/
def natToBin (n : Nat) : List Nat :=
  if n = 0 then [0] else natToBinAux n n []

/-- Zero-pad a digit list on the left to at least 8 digits (the `.8`
precision of `%.8b`). -/
def pad8 (l : List Nat) : List Nat :=
  List.replicate (8 - l.length) 0 ++ l

/-- `stringToBinary(s)`: for each rune of `s`, append `%.8b` of the
rune, i.e. its binary digits zero-padded to at least 8. -/
def stringToBinary (s : List Nat) : List Nat :=
  s.flatMap fun c => pad8 (natToBin c)

/-- `loadSecret`: serialize `secret + stopStegConst` to its bit list.
(The Go code goes through a digit string and `strconv.Atoi`; on the
digit characters `'0'`/`'1'` produced by `stringToBinary` that
round-trip is the identity and never errors.) -/
def loadSecret (secret : List Nat) : List Nat :=
  stringToBinary (secret ++ stopSteg)

/-- The 8 bits of a byte, most significant first (spec-side form). -/
def byteBits (c : Nat) : List Nat :=
  [c / 128 % 2, c / 64 % 2, c / 32 % 2, c / 16 % 2,
   c / 8 % 2, c / 4 % 2, c / 2 % 2, c % 2]

/-- `getBitsFromRGB(values...)`: one bit per value, `0` if even, `1` if
odd. -/
def getBitsFromRGB (values : List Nat) : List Nat :=
  values.map fun v => if v % 2 = 0 then 0 else 1

/-- The three extracted bits of one pixel: parities of the stored `r`,
`g`, `b` channels (spec-side form). -/
def pixBits (p : Pixel) : List Nat :=
  [p.r % 2, p.g % 2, p.b % 2]

/-- Inner loop of `embedSecret`: `for y := bounds.Min.Y; y < bounds.Max.Y; y++`
(`rows` is the remaining iteration count).  Reads
`r, g, b, a := newImg.At(x, y).RGBA()` (8-bit values scaled by 257),
writes the red channel and conditionally the green and blue channels
through `manipulateLSB`, stores alpha as `uint8(a / 0x101)`, and breaks
as soon as the bit stream is exhausted. -/
def embedLoopY (bits : List Nat) (x : Int) :
    Nat → Int → RGBAImage → Nat → RGBAImage × Nat
  | 0, _, img, idx => (img, idx)
  | rows + 1, y, img, idx =>
    if idx < bits.length then
      let p := img.At x y
      let r := p.r * 257
      let g := p.g * 257
      let b := p.b * 257
      let a := p.a * 257
      let newR := manipulateLSB r (bits.getD idx 0)
      let idx1 := idx + 1
      let newG := if idx1 < bits.length then manipulateLSB g (bits.getD idx1 0) else g % 256
      let idx2 := if idx1 < bits.length then idx1 + 1 else idx1
      let newB := if idx2 < bits.length then manipulateLSB b (bits.getD idx2 0) else b % 256
      let idx3 := if idx2 < bits.length then idx2 + 1 else idx2
      embedLoopY bits x rows (y + 1)
        (img.SetRGBA x y ⟨newR, newG, newB, a / 257 % 256⟩) idx3
    else (img, idx)

/-- Outer loop of `embedSecret`: `for x := bounds.Min.X; x < bounds.Max.X; x++`
(`cols` is the remaining iteration count; each column runs the inner
loop from `Min.Y` for `rows` iterations), breaking once the bit stream
is exhausted. -/
def embedLoopX (bits : List Nat) (rows : Nat) (minY : Int) :
    Nat → Int → RGBAImage → Nat → RGBAImage × Nat
  | 0, _, img, idx => (img, idx)
  | cols + 1, x, img, idx =>
    let r := embedLoopY bits x rows minY img idx
    if r.2 ≥ bits.length then r
    else embedLoopX bits rows minY cols (x + 1) r.1 r.2

/-- `embedSecret`: capacity check against `bounds.Max.X * bounds.Max.Y * 3`,
then the nested pixel traversal.  Returns the error (if any) together
with the resulting buffer (unchanged on error). -/
def embedSecret (img : RGBAImage) (secretBits : List Nat) :
    Option String × RGBAImage :=
  if (secretBits.length : Int) > img.maxX * img.maxY * 3 then
    (some "not enough pixels to hide secret", img)
  else
    (none,
     (embedLoopX secretBits (img.maxY - img.minY).toNat img.minY
        (img.maxX - img.minX).toNat img.minX img 0).1)

/-- Inner loop of `getSecretString`:
`for y := bounds.Min.Y; y <= bounds.Max.Y; y++` (inclusive bound, so
the iteration count is `(Max.Y + 1 - Min.Y).toNat`), appending the
parities of the `RGBA()` values of `r`, `g`, `b`. -/
def getLoopY (img : RGBAImage) (x : Int) :
    Nat → Int → List Nat → List Nat
  | 0, _, acc => acc
  | rows + 1, y, acc =>
    let p := img.At x y
    getLoopY img x rows (y + 1)
      (acc ++ getBitsFromRGB [p.r * 257, p.g * 257, p.b * 257])

/-- Outer loop of `getSecretString`:
`for x := bounds.Min.X; x <= bounds.Max.X; x++` (inclusive bound). -/
def getLoopX (img : RGBAImage) (rows : Nat) (minY : Int) :
    Nat → Int → List Nat → List Nat
  | 0, _, acc => acc
  | cols + 1, x, acc =>
    getLoopX img rows minY cols (x + 1) (getLoopY img x rows minY acc)

/-- The bit list accumulated by the extraction scan of `getSecretString`. -/
def extractBits (img : RGBAImage) : List Nat :=
  getLoopX img (img.maxY - img.minY + 1).toNat img.minY
    (img.maxX - img.minX + 1).toNat img.minX []

/-- Spec-side closed form of the extraction scan: x outer, y inner, both
ascending and inclusive of the maximum bound, three parity bits per
visited pixel. -/
def extractBitsSpec (img : RGBAImage) : List Nat :=
  (List.range (img.maxX - img.minX + 1).toNat).flatMap fun i =>
    (List.range (img.maxY - img.minY + 1).toNat).flatMap fun j =>
      pixBits (img.At (img.minX + (i : Int)) (img.minY + (j : Int)))

/-- `getCharFromBits(bits)`: fold 8 bits, most significant first, into a
byte value. -/
def getCharFromBits (bits : List Nat) : Nat :=
  (List.range 8).foldl
    (fun tmp b => if bits.getD b 0 = 1 then tmp ||| (1 <<< (7 - b)) else tmp) 0

/-- `bitsToString(bits)`: take the bits 8 at a time (`bits[i : i+8]`)
and decode each batch.  When the remaining batch is non-empty but
shorter than 8 the Go slice reaches past the end of the accumulated
bits; that abnormal case is `none`. -/
def bitsToString : List Nat → Option (List Nat)
  | [] => some []
  | b1 :: b2 :: b3 :: b4 :: b5 :: b6 :: b7 :: b8 :: rest =>
    (bitsToString rest).map fun out =>
      getCharFromBits [b1, b2, b3, b4, b5, b6, b7, b8] :: out
  | _ => none

/-- Index of the first occurrence of `pat` in `t` (Go `strings.Index`;
`strings.Contains` is its `isSome`, and `strings.Split(t, pat)[0]` is
`t.take` of it). -/
def findSub (pat : List Nat) : List Nat → Option Nat
  | [] => if pat.isPrefixOf ([] : List Nat) then some 0 else none
  | c :: rest =>
    if pat.isPrefixOf (c :: rest) then some 0
    else (findSub pat rest).map (· + 1)

/-- `getSecretString`: scan the loaded buffer, decode the bits, and
split at the sentinel; `none` models the out-of-range slice in
`bitsToString`. -/
def getSecretString (img : RGBAImage) : Option (Except String (List Nat)) :=
  (bitsToString (extractBits img)).map fun tmp =>
    match findSub stopSteg tmp with
    | some p => Except.ok (tmp.take p)
    | none => Except.error "error finding embedded secret string"

/-- `image.NewRGBA(imgLoaded.Bounds())` followed by `draw.Draw` of the
source over it: a buffer on the same bounds whose store is the pixel
copy of the source (out-of-bounds points of the store are the zero
colour, as in a freshly allocated `image.RGBA`). -/
def mutableCopy (src : RGBAImage) : RGBAImage :=
  { minX := src.minX, minY := src.minY, maxX := src.maxX, maxY := src.maxY,
    pix := fun x y => src.At x y }

/-- `createMutableImage`: fails when no image is loaded, else allocates
`newImg` on the same bounds and draws the source over it. -/
def createMutableImage (imgLoaded : Option RGBAImage) :
    Except String RGBAImage :=
  match imgLoaded with
  | none => Except.error "no image loaded"
  | some src => Except.ok (mutableCopy src)

/-- `DoStegEmbed`: create the mutable image, serialize the secret, embed. -/
def DoStegEmbed (imgLoaded : Option RGBAImage) (secret : List Nat) :
    Except String RGBAImage :=
  match createMutableImage imgLoaded with
  | Except.error e => Except.error e
  | Except.ok newImg =>
    match embedSecret newImg (loadSecret secret) with
    | (some e, _) => Except.error e
    | (none, out) => Except.ok out

/-- `DoStegExtract` delegates to `getSecretString`. -/
def DoStegExtract (imgLoaded : RGBAImage) : Option (Except String (List Nat)) :=
  getSecretString imgLoaded

/-- Embed followed by extract on the resulting buffer. -/
def roundTrip (src : RGBAImage) (secret : List Nat) :
    Option (Except String (List Nat)) :=
  match DoStegEmbed (some src) secret with
  | Except.error e => some (Except.error e)
  | Except.ok emb => getSecretString emb

/-- The channel writes of one visited pixel of `embedSecret`, starting
at stream position `pos` (helper form of the loop body). -/
def embedChan (p : Pixel) (bits : List Nat) (pos : Nat) : Pixel :=
  { r := manipulateLSB (p.r * 257) (bits.getD pos 0)
  , g := if pos + 1 < bits.length then manipulateLSB (p.g * 257) (bits.getD (pos + 1) 0)
         else p.g * 257 % 256
  , b := if pos + 2 < bits.length then manipulateLSB (p.b * 257) (bits.getD (pos + 2) 0)
         else p.b * 257 % 256
  , a := p.a * 257 / 257 % 256 }

/-- A constant all-black opaque buffer on `[0, w) x [0, h)`. -/
def blackImage (w h : Int) : RGBAImage :=
  { minX := 0, minY := 0, maxX := w, maxY := h, pix := fun _ _ => ⟨0, 0, 0, 255⟩ }

/-- The secret `"Karl"` as rune codepoints. -/
def karlStr : List Nat := [75, 97, 114, 108]

/-- A 1x1 all-black opaque buffer whose rectangle has a nonzero origin
(Go `image.NewRGBA(image.Rect(5, 5, 6, 6))`). -/
def offsetImage : RGBAImage :=
  { minX := 5, minY := 5, maxX := 6, maxY := 6, pix := fun _ _ => ⟨0, 0, 0, 255⟩ }

/-- Reference value of the `k`-th bit extracted from column zero of the
embedded buffer: a payload bit while the stream lasts, afterwards the
parity of the untouched source channel (helper for the round-trip
proof). -/
def colRef (src : RGBAImage) (bits : List Nat) (k : Nat) : Nat :=
  if k < bits.length then bits.getD k 0
  else (pixBits (src.At 0 ((k / 3 : Nat) : Int))).getD (k % 3) 0

/-- `pat` occurs in `t` at offset `p`. -/
def occursAt (t pat : List Nat) (p : Nat) : Prop :=
  pat.isPrefixOf (t.drop p) = true


/-! ## Basic lemmas on the pixel buffer -/

theorem RGBAImage.At_eq_pix (img : RGBAImage) (x y : Int)
    (h1 : img.minX ≤ x) (h2 : x < img.maxX) (h3 : img.minY ≤ y)
    (h4 : y < img.maxY) : img.At x y = img.pix x y := by
  unfold RGBAImage.At
  rw [if_pos ⟨h1, h2, h3, h4⟩]

theorem RGBAImage.SetRGBA_minX (img : RGBAImage) (x y : Int) (c : Pixel) :
    (img.SetRGBA x y c).minX = img.minX := by
  unfold RGBAImage.SetRGBA
  split <;> rfl

theorem RGBAImage.SetRGBA_minY (img : RGBAImage) (x y : Int) (c : Pixel) :
    (img.SetRGBA x y c).minY = img.minY := by
  unfold RGBAImage.SetRGBA
  split <;> rfl

theorem RGBAImage.SetRGBA_maxX (img : RGBAImage) (x y : Int) (c : Pixel) :
    (img.SetRGBA x y c).maxX = img.maxX := by
  unfold RGBAImage.SetRGBA
  split <;> rfl

theorem RGBAImage.SetRGBA_maxY (img : RGBAImage) (x y : Int) (c : Pixel) :
    (img.SetRGBA x y c).maxY = img.maxY := by
  unfold RGBAImage.SetRGBA
  split <;> rfl

theorem RGBAImage.SetRGBA_pix (img : RGBAImage) (x y : Int) (c : Pixel)
    (u v : Int) :
    (img.SetRGBA x y c).pix u v =
      if (img.minX ≤ x ∧ x < img.maxX ∧ img.minY ≤ y ∧ y < img.maxY) ∧
          u = x ∧ v = y then c
      else img.pix u v := by
  unfold RGBAImage.SetRGBA
  by_cases h : img.minX ≤ x ∧ x < img.maxX ∧ img.minY ≤ y ∧ y < img.maxY
  · rw [if_pos h]
    show (if u = x ∧ v = y then c else img.pix u v) = _
    by_cases h2 : u = x ∧ v = y
    · rw [if_pos h2, if_pos ⟨h, h2⟩]
    · rw [if_neg h2, if_neg (by tauto)]
  · rw [if_neg h, if_neg (by tauto)]

/-! ## Lemmas on `manipulateLSB` and the 16-bit channel scaling -/

theorem lsbFacts : ∀ w, w < 256 →
    (w &&& 254) % 2 = 0 ∧ (w ||| 1) % 2 = 1 ∧
    (w &&& 254) / 2 = w / 2 ∧ (w ||| 1) / 2 = w / 2 ∧
    (w &&& 254) ≤ w ∧ w - (w &&& 254) ≤ 1 ∧
    w ≤ (w ||| 1) ∧ (w ||| 1) ≤ w + 1 ∧
    (w &&& 254) < 256 ∧ (w ||| 1) < 256 := by decide

theorem mul257_mod256 (v : Nat) : v * 257 % 256 = v % 256 := by
  omega

theorem mul257_mod2 (v : Nat) : v * 257 % 2 = v % 2 := by
  omega

theorem mul257_div257 (v : Nat) : v * 257 / 257 = v := by
  omega

theorem manipulateLSB_eq (i bit : Nat) :
    manipulateLSB i bit =
      if bit = 0 then i % 256 &&& 254 else i % 256 ||| 1 := rfl

theorem manipulateLSB_lt (i bit : Nat) : manipulateLSB i bit < 256 := by
  have hf := lsbFacts (i % 256) (Nat.mod_lt _ (by omega))
  rw [manipulateLSB_eq]
  split <;> omega

theorem manipulateLSB_mod2 (i bit : Nat) (h : bit = 0 ∨ bit = 1) :
    manipulateLSB i bit % 2 = bit := by
  have hf := lsbFacts (i % 256) (Nat.mod_lt _ (by omega))
  rw [manipulateLSB_eq]
  rcases h with h | h <;> subst h <;> simp <;> omega

theorem manipulateLSB_div2 (i bit : Nat) :
    manipulateLSB i bit / 2 = i % 256 / 2 := by
  have hf := lsbFacts (i % 256) (Nat.mod_lt _ (by omega))
  rw [manipulateLSB_eq]
  split <;> omega

theorem manipulateLSB_diff (i bit : Nat) :
    ((i % 256 : Nat) - (manipulateLSB i bit : Nat) : Int).natAbs ≤ 1 := by
  have hf := lsbFacts (i % 256) (Nat.mod_lt _ (by omega))
  rw [manipulateLSB_eq]
  split <;> omega

/-! ## Characterization of the embedding traversal -/

theorem embedLoopY_step (bits : List Nat) (x : Int) (rows : Nat) (y : Int)
    (img : RGBAImage) (idx : Nat) (h : idx < bits.length) :
    embedLoopY bits x (rows + 1) y img idx =
      embedLoopY bits x rows (y + 1)
        (img.SetRGBA x y (embedChan (img.At x y) bits idx))
        (min (idx + 3) bits.length) := by
  rw [embedLoopY]
  simp only [if_pos h]
  by_cases h1 : idx + 1 < bits.length
  · by_cases h2 : idx + 2 < bits.length
    · rw [if_pos h1]
      have e1 : (if idx + 1 < bits.length then idx + 1 + 1 else idx + 1) = idx + 2 := by
        rw [if_pos h1]
      rw [e1, if_pos h2, if_pos h2]
      have e2 : min (idx + 3) bits.length = idx + 2 + 1 := by omega
      rw [e2]
      show embedLoopY bits x rows (y + 1) (img.SetRGBA x y _) _ =
        embedLoopY bits x rows (y + 1) (img.SetRGBA x y _) _
      congr 2
      unfold embedChan
      simp only [if_pos h1, if_pos h2]
    · rw [if_pos h1]
      have e1 : (if idx + 1 < bits.length then idx + 1 + 1 else idx + 1) = idx + 2 := by
        rw [if_pos h1]
      rw [e1, if_neg h2, if_neg h2]
      have e2 : min (idx + 3) bits.length = idx + 2 := by omega
      rw [e2]
      show embedLoopY bits x rows (y + 1) (img.SetRGBA x y _) _ =
        embedLoopY bits x rows (y + 1) (img.SetRGBA x y _) _
      congr 2
      unfold embedChan
      simp only [if_pos h1, if_neg h2]
  · rw [if_neg h1]
    have e1 : (if idx + 1 < bits.length then idx + 1 + 1 else idx + 1) = idx + 1 := by
      rw [if_neg h1]
    have h2 : ¬ idx + 1 < bits.length := h1
    rw [e1, if_neg h2, if_neg h2]
    have e2 : min (idx + 3) bits.length = idx + 1 := by omega
    rw [e2]
    show embedLoopY bits x rows (y + 1) (img.SetRGBA x y _) _ =
      embedLoopY bits x rows (y + 1) (img.SetRGBA x y _) _
    congr 2
    unfold embedChan
    simp only [if_neg h1, if_neg (show ¬ idx + 2 < bits.length by omega)]

theorem embedLoopY_zero (bits : List Nat) (x : Int) (y : Int)
    (img : RGBAImage) (idx : Nat) :
    embedLoopY bits x 0 y img idx = (img, idx) := rfl

theorem embedLoopY_stop (bits : List Nat) (x : Int) (rows : Nat) (y : Int)
    (img : RGBAImage) (idx : Nat) (h : ¬ idx < bits.length) :
    embedLoopY bits x (rows + 1) y img idx = (img, idx) := by
  rw [embedLoopY]
  exact if_neg h

theorem embedLoopY_bounds (bits : List Nat) (x : Int) :
    ∀ (rows : Nat) (y : Int) (img : RGBAImage) (idx : Nat),
      (embedLoopY bits x rows y img idx).1.minX = img.minX ∧
      (embedLoopY bits x rows y img idx).1.minY = img.minY ∧
      (embedLoopY bits x rows y img idx).1.maxX = img.maxX ∧
      (embedLoopY bits x rows y img idx).1.maxY = img.maxY := by
  intro rows
  induction rows with
  | zero => intro y img idx; exact ⟨rfl, rfl, rfl, rfl⟩
  | succ n ih =>
    intro y img idx
    by_cases h : idx < bits.length
    · rw [embedLoopY_step bits x n y img idx h]
      have := ih (y + 1) (img.SetRGBA x y (embedChan (img.At x y) bits idx))
        (min (idx + 3) bits.length)
      simpa [RGBAImage.SetRGBA_minX, RGBAImage.SetRGBA_minY,
        RGBAImage.SetRGBA_maxX, RGBAImage.SetRGBA_maxY] using this
    · rw [embedLoopY_stop bits x n y img idx h]
      exact ⟨rfl, rfl, rfl, rfl⟩

theorem embedLoopY_snd (bits : List Nat) (x : Int) :
    ∀ (rows : Nat) (y : Int) (img : RGBAImage) (idx : Nat),
      idx ≤ bits.length →
      (embedLoopY bits x rows y img idx).2 = min (idx + 3 * rows) bits.length := by
  intro rows
  induction rows with
  | zero =>
    intro y img idx h
    show idx = min (idx + 3 * 0) bits.length
    omega
  | succ n ih =>
    intro y img idx h
    by_cases hlt : idx < bits.length
    · rw [embedLoopY_step bits x n y img idx hlt]
      rw [ih (y + 1) _ (min (idx + 3) bits.length) (by omega)]
      omega
    · rw [embedLoopY_stop bits x n y img idx hlt]
      show idx = min (idx + 3 * (n + 1)) bits.length
      omega

theorem embedLoopY_pix (bits : List Nat) (x : Int) :
    ∀ (rows : Nat) (y : Int) (img : RGBAImage) (idx : Nat),
      idx ≤ bits.length →
      img.minX ≤ x → x < img.maxX → img.minY ≤ y →
      y + (rows : Int) ≤ img.maxY →
      ∀ u v, (embedLoopY bits x rows y img idx).1.pix u v =
        if u = x ∧ y ≤ v ∧ v < y + (rows : Int) ∧
            idx + 3 * (v - y).toNat < bits.length then
          embedChan (img.pix u v) bits (idx + 3 * (v - y).toNat)
        else img.pix u v := by
  intro rows
  induction rows with
  | zero =>
    intro y img idx hidx hx1 hx2 hy hmy u v
    rw [embedLoopY_zero]
    rw [if_neg (by rintro ⟨_, h1, h2, _⟩; omega)]
  | succ n ih =>
    intro y img idx hidx hx1 hx2 hy hmy u v
    by_cases hlt : idx < bits.length
    · rw [embedLoopY_step bits x n y img idx hlt]
      have hymax : y < img.maxY := by omega
      have hG : img.minX ≤ x ∧ x < img.maxX ∧ img.minY ≤ y ∧ y < img.maxY :=
        ⟨hx1, hx2, hy, hymax⟩
      have hsx1 : (img.SetRGBA x y (embedChan (img.At x y) bits idx)).minX ≤ x := by
        rw [RGBAImage.SetRGBA_minX]; exact hx1
      have hsx2 : x < (img.SetRGBA x y (embedChan (img.At x y) bits idx)).maxX := by
        rw [RGBAImage.SetRGBA_maxX]; exact hx2
      have hsy : (img.SetRGBA x y (embedChan (img.At x y) bits idx)).minY ≤ y + 1 := by
        rw [RGBAImage.SetRGBA_minY]; omega
      have hsmy : y + 1 + (n : Int) ≤
          (img.SetRGBA x y (embedChan (img.At x y) bits idx)).maxY := by
        rw [RGBAImage.SetRGBA_maxY]; push_cast at hmy ⊢; omega
      rw [ih (y + 1) _ (min (idx + 3) bits.length) (by omega) hsx1 hsx2 hsy hsmy u v]
      rw [RGBAImage.SetRGBA_pix]
      by_cases hD : (img.minX ≤ x ∧ x < img.maxX ∧ img.minY ≤ y ∧ y < img.maxY) ∧
          u = x ∧ v = y
      · obtain ⟨-, hu, hv⟩ := hD
        rw [if_neg (by rintro ⟨_, h1, _, _⟩; omega)]
        rw [if_pos ⟨hG, hu, hv⟩]
        rw [if_pos ⟨hu, by omega, by push_cast; omega, by omega⟩]
        rw [RGBAImage.At_eq_pix img x y hx1 hx2 hy hymax, hu, hv]
        rw [show idx + 3 * ((y : Int) - y).toNat = idx from by omega]
      · rw [if_neg hD]
        by_cases hC2 : u = x ∧ y + 1 ≤ v ∧ v < y + 1 + (n : Int) ∧
            min (idx + 3) bits.length + 3 * (v - (y + 1)).toNat < bits.length
        · rw [if_pos hC2]
          obtain ⟨hu, hv1, hv2, hP⟩ := hC2
          rw [if_pos ⟨hu, by omega, by push_cast at hv2 ⊢; omega, by omega⟩]
          rw [show min (idx + 3) bits.length + 3 * (v - (y + 1)).toNat =
            idx + 3 * (v - y).toNat from by omega]
        · rw [if_neg hC2]
          rw [if_neg ?hC]
          case hC =>
            rintro ⟨hu, h1, h2, h3⟩
            have hvy : v ≠ y := fun hv => hD ⟨hG, hu, hv⟩
            push_cast at h2
            exact hC2 ⟨hu, by omega, by push_cast; omega, by omega⟩
    · rw [embedLoopY_stop bits x n y img idx hlt]
      rw [if_neg (by rintro ⟨_, _, _, hP⟩; omega)]

theorem embedLoopX_bounds (bits : List Nat) (rows : Nat) (minY : Int) :
    ∀ (cols : Nat) (x : Int) (img : RGBAImage) (idx : Nat),
      (embedLoopX bits rows minY cols x img idx).1.minX = img.minX ∧
      (embedLoopX bits rows minY cols x img idx).1.minY = img.minY ∧
      (embedLoopX bits rows minY cols x img idx).1.maxX = img.maxX ∧
      (embedLoopX bits rows minY cols x img idx).1.maxY = img.maxY := by
  intro cols
  induction cols with
  | zero => intro x img idx; exact ⟨rfl, rfl, rfl, rfl⟩
  | succ n ih =>
    intro x img idx
    rw [embedLoopX]
    have hYb := embedLoopY_bounds bits x rows minY img idx
    by_cases hb : (embedLoopY bits x rows minY img idx).2 ≥ bits.length
    · simp only [if_pos hb]
      exact hYb
    · simp only [if_neg hb]
      have := ih (x + 1) (embedLoopY bits x rows minY img idx).1
        (embedLoopY bits x rows minY img idx).2
      omega
  
theorem embedLoopX_snd (bits : List Nat) (rows : Nat) (minY : Int) :
    ∀ (cols : Nat) (x : Int) (img : RGBAImage) (idx : Nat),
      idx ≤ bits.length →
      (embedLoopX bits rows minY cols x img idx).2 =
        min (idx + 3 * rows * cols) bits.length := by
  intro cols
  induction cols with
  | zero =>
    intro x img idx h
    show idx = min (idx + 3 * rows * 0) bits.length
    omega
  | succ n ih =>
    intro x img idx h
    rw [embedLoopX]
    have hY := embedLoopY_snd bits x rows minY img idx h
    by_cases hb : (embedLoopY bits x rows minY img idx).2 ≥ bits.length
    · simp only [if_pos hb]
      rw [hY]
      have e : 3 * rows * (n + 1) = 3 * rows * n + 3 * rows := by ring
      omega
    · simp only [if_neg hb]
      rw [ih (x + 1) (embedLoopY bits x rows minY img idx).1
        (embedLoopY bits x rows minY img idx).2 (by omega)]
      rw [hY]
      have : idx + 3 * rows < bits.length := by omega
      have e : min (idx + 3 * rows) bits.length = idx + 3 * rows := by omega
      rw [e]
      congr 1
      ring

theorem embedLoopX_pix (bits : List Nat) (rows : Nat) (minY : Int) :
    ∀ (cols : Nat) (x : Int) (img : RGBAImage) (idx : Nat),
      idx ≤ bits.length →
      img.minX ≤ x → x + (cols : Int) ≤ img.maxX →
      img.minY ≤ minY → minY + (rows : Int) ≤ img.maxY →
      ∀ u v, (embedLoopX bits rows minY cols x img idx).1.pix u v =
        if x ≤ u ∧ u < x + (cols : Int) ∧ minY ≤ v ∧ v < minY + (rows : Int) ∧
            idx + 3 * (rows * (u - x).toNat + (v - minY).toNat) < bits.length then
          embedChan (img.pix u v)
            bits (idx + 3 * (rows * (u - x).toNat + (v - minY).toNat))
        else img.pix u v := by
  intro cols
  induction cols with
  | zero =>
    intro x img idx hidx hx1 hx2 hy1 hy2 u v
    rw [if_neg (by rintro ⟨h1, h2, _⟩; omega)]
    rfl
  | succ n ih =>
    intro x img idx hidx hx1 hx2 hy1 hy2 u v
    rw [embedLoopX]
    have hxmax : x < img.maxX := by push_cast at hx2; omega
    have hY2 := embedLoopY_snd bits x rows minY img idx hidx
    have hYb := embedLoopY_bounds bits x rows minY img idx
    have hYpix := embedLoopY_pix bits x rows minY img idx hidx hx1 hxmax hy1 hy2
    by_cases hb : (embedLoopY bits x rows minY img idx).2 ≥ bits.length
    · simp only [if_pos hb]
      rw [hYpix u v]
      by_cases hI : u = x ∧ minY ≤ v ∧ v < minY + (rows : Int) ∧
          idx + 3 * (v - minY).toNat < bits.length
      · obtain ⟨hu, h1, h2, h3⟩ := hI
        rw [if_pos ⟨hu, h1, h2, h3⟩]
        have e0 : (u - x).toNat = 0 := by omega
        simp only [e0, Nat.mul_zero, Nat.zero_add]
        rw [if_pos ⟨by omega, by push_cast; omega, h1, h2, h3⟩]
      · rw [if_neg hI, if_neg ?hc]
        case hc =>
          rintro ⟨h1, h2, h3, h4, h5⟩
          by_cases hux : u = x
          · refine hI ⟨hux, h3, h4, ?_⟩
            have e0 : (u - x).toNat = 0 := by omega
            rw [e0, Nat.mul_zero, Nat.zero_add] at h5
            exact h5
          · have hk : 1 ≤ (u - x).toNat := by omega
            have hm := Nat.mul_le_mul_left rows hk
            omega
    · simp only [if_neg hb]
      have hcol2 : (embedLoopY bits x rows minY img idx).2 = idx + 3 * rows := by
        omega
      rw [ih (x + 1) (embedLoopY bits x rows minY img idx).1
        (embedLoopY bits x rows minY img idx).2 (by omega)
        (by rw [hYb.1]; omega) (by rw [hYb.2.2.1]; push_cast at hx2 ⊢; omega)
        (by rw [hYb.2.1]; exact hy1) (by rw [hYb.2.2.2]; exact hy2) u v]
      rw [hYpix u v]
      by_cases hI : u = x ∧ minY ≤ v ∧ v < minY + (rows : Int) ∧
          idx + 3 * (v - minY).toNat < bits.length
      · obtain ⟨hu, h1, h2, h3⟩ := hI
        rw [if_neg (by rintro ⟨hxx, _⟩; omega)]
        rw [if_pos ⟨hu, h1, h2, h3⟩]
        have e0 : (u - x).toNat = 0 := by omega
        simp only [e0, Nat.mul_zero, Nat.zero_add]
        rw [if_pos ⟨by omega, by push_cast; omega, h1, h2, h3⟩]
      · rw [if_neg hI]
        by_cases hCih : x + 1 ≤ u ∧ u < x + 1 + (n : Int) ∧ minY ≤ v ∧
            v < minY + (rows : Int) ∧
            (embedLoopY bits x rows minY img idx).2 +
              3 * (rows * (u - (x + 1)).toNat + (v - minY).toNat) < bits.length
        · obtain ⟨g1, g2, g3, g4, g5⟩ := hCih
          rw [if_pos ⟨g1, g2, g3, g4, g5⟩]
          have e1 : (u - x).toNat = (u - (x + 1)).toNat + 1 := by omega
          have e2 : rows * (u - x).toNat = rows * (u - (x + 1)).toNat + rows := by
            rw [e1]; ring
          rw [if_pos ⟨by omega, by push_cast at g2 ⊢; omega, g3, g4, by omega⟩]
          rw [show (embedLoopY bits x rows minY img idx).2 +
              3 * (rows * (u - (x + 1)).toNat + (v - minY).toNat) =
              idx + 3 * (rows * (u - x).toNat + (v - minY).toNat) from by omega]
        · rw [if_neg hCih, if_neg ?hc2]
          case hc2 =>
            rintro ⟨c1, c2, c3, c4, c5⟩
            by_cases hux : u = x
            · refine hI ⟨hux, c3, c4, ?_⟩
              have e0 : (u - x).toNat = 0 := by omega
              rw [e0, Nat.mul_zero, Nat.zero_add] at c5
              exact c5
            · refine hCih ⟨by omega, by push_cast at c2 ⊢; omega, c3, c4, ?_⟩
              have e1 : (u - x).toNat = (u - (x + 1)).toNat + 1 := by omega
              have e2 : rows * (u - x).toNat = rows * (u - (x + 1)).toNat + rows := by
                rw [e1]; ring
              omega

theorem embedLoopX_rows_zero (bits : List Nat) (minY : Int) :
    ∀ (cols : Nat) (x : Int) (img : RGBAImage) (idx : Nat),
      embedLoopX bits 0 minY cols x img idx = (img, idx) := by
  intro cols
  induction cols with
  | zero => intro x img idx; rfl
  | succ n ih =>
    intro x img idx
    rw [embedLoopX]
    simp only [embedLoopY_zero]
    by_cases h : idx ≥ bits.length
    · rw [if_pos h]
    · rw [if_neg h]
      exact ih (x + 1) img idx

theorem embedSecret_fst (img : RGBAImage) (bits : List Nat) :
    (embedSecret img bits).1 =
      if (bits.length : Int) > img.maxX * img.maxY * 3 then
        some "not enough pixels to hide secret"
      else none := by
  unfold embedSecret
  split <;> rfl

theorem embedSecret_snd_err (img : RGBAImage) (bits : List Nat)
    (h : (bits.length : Int) > img.maxX * img.maxY * 3) :
    (embedSecret img bits).2 = img := by
  unfold embedSecret
  rw [if_pos h]

theorem embedSecret_snd_ok (img : RGBAImage) (bits : List Nat)
    (h : ¬ (bits.length : Int) > img.maxX * img.maxY * 3) :
    (embedSecret img bits).2 =
      (embedLoopX bits (img.maxY - img.minY).toNat img.minY
        (img.maxX - img.minX).toNat img.minX img 0).1 := by
  unfold embedSecret
  rw [if_neg h]

theorem embedSecret_bounds (img : RGBAImage) (bits : List Nat) :
    (embedSecret img bits).2.minX = img.minX ∧
    (embedSecret img bits).2.minY = img.minY ∧
    (embedSecret img bits).2.maxX = img.maxX ∧
    (embedSecret img bits).2.maxY = img.maxY := by
  by_cases h : (bits.length : Int) > img.maxX * img.maxY * 3
  · rw [embedSecret_snd_err img bits h]
    exact ⟨rfl, rfl, rfl, rfl⟩
  · rw [embedSecret_snd_ok img bits h]
    exact embedLoopX_bounds bits (img.maxY - img.minY).toNat img.minY
      (img.maxX - img.minX).toNat img.minX img 0

theorem embedSecret_pix (img : RGBAImage) (bits : List Nat)
    (hcap : ¬ (bits.length : Int) > img.maxX * img.maxY * 3) (u v : Int) :
    (embedSecret img bits).2.pix u v =
      if img.minX ≤ u ∧ u < img.maxX ∧ img.minY ≤ v ∧ v < img.maxY ∧
          3 * ((img.maxY - img.minY).toNat * (u - img.minX).toNat +
            (v - img.minY).toNat) < bits.length then
        embedChan (img.pix u v) bits
          (3 * ((img.maxY - img.minY).toNat * (u - img.minX).toNat +
            (v - img.minY).toNat))
      else img.pix u v := by
  rw [embedSecret_snd_ok img bits hcap]
  by_cases hdx : img.minX ≤ img.maxX
  · by_cases hdy : img.minY ≤ img.maxY
    · rw [embedLoopX_pix bits (img.maxY - img.minY).toNat img.minY
        (img.maxX - img.minX).toNat img.minX img 0 (by omega) (le_refl _)
        (by push_cast; omega) (le_refl _) (by push_cast; omega) u v]
      rw [show img.minX + ((img.maxX - img.minX).toNat : Int) = img.maxX from by
        push_cast; omega]
      rw [show img.minY + ((img.maxY - img.minY).toNat : Int) = img.maxY from by
        push_cast; omega]
      simp only [Nat.zero_add]
    · have hr : (img.maxY - img.minY).toNat = 0 := by omega
      rw [hr, embedLoopX_rows_zero]
      rw [if_neg (by rintro ⟨_, _, h3, h4, _⟩; omega)]
  · have hc : (img.maxX - img.minX).toNat = 0 := by omega
    rw [hc]
    rw [show embedLoopX bits (img.maxY - img.minY).toNat img.minY 0 img.minX img 0 =
      (img, 0) from rfl]
    rw [if_neg (by rintro ⟨h1, h2, _⟩; omega)]

/-! ## Characterization of the extraction scan -/

theorem getBitsFromRGB_pix (p : Pixel) :
    getBitsFromRGB [p.r * 257, p.g * 257, p.b * 257] = pixBits p := by
  have h : ∀ v : Nat, (if v * 257 % 2 = 0 then 0 else 1) = v % 2 := by
    intro v
    have := mul257_mod2 v
    split <;> omega
  unfold getBitsFromRGB pixBits
  simp only [List.map_cons, List.map_nil, h]

theorem getLoopY_eq (img : RGBAImage) (x : Int) :
    ∀ (rows : Nat) (y : Int) (acc : List Nat),
      getLoopY img x rows y acc =
        acc ++ (List.range rows).flatMap fun j =>
          pixBits (img.At x (y + (j : Int))) := by
  intro rows
  induction rows with
  | zero =>
    intro y acc
    simp [getLoopY]
  | succ n ih =>
    intro y acc
    simp only [getLoopY]
    rw [ih (y + 1)]
    rw [getBitsFromRGB_pix]
    rw [List.range_succ_eq_map, List.flatMap_cons, List.flatMap_map]
    have e0 : y + ((0 : Nat) : Int) = y := by push_cast; ring
    have e1 : ∀ j : Nat, y + 1 + (j : Int) = y + ((Nat.succ j : Nat) : Int) := by
      intro j
      push_cast
      ring
    simp only [e0, e1, List.append_assoc]

theorem getLoopX_eq (img : RGBAImage) (rows : Nat) (minY : Int) :
    ∀ (cols : Nat) (x : Int) (acc : List Nat),
      getLoopX img rows minY cols x acc =
        acc ++ (List.range cols).flatMap fun i =>
          (List.range rows).flatMap fun j =>
            pixBits (img.At (x + (i : Int)) (minY + (j : Int))) := by
  intro cols
  induction cols with
  | zero =>
    intro x acc
    simp [getLoopX]
  | succ n ih =>
    intro x acc
    simp only [getLoopX]
    rw [ih (x + 1)]
    rw [getLoopY_eq img x rows minY acc]
    rw [List.range_succ_eq_map, List.flatMap_cons, List.flatMap_map]
    have e0 : x + ((0 : Nat) : Int) = x := by push_cast; ring
    have e1 : ∀ i : Nat, x + 1 + (i : Int) = x + ((Nat.succ i : Nat) : Int) := by
      intro i
      push_cast
      ring
    simp only [e0, e1, List.append_assoc]

theorem extractBits_eq_spec (img : RGBAImage) :
    extractBits img = extractBitsSpec img := by
  unfold extractBits extractBitsSpec
  rw [getLoopX_eq]
  simp

theorem flatMapRange_const_length (f : Nat → List Nat) (m c : Nat)
    (h : ∀ j, (f j).length = c) :
    ((List.range m).flatMap f).length = m * c := by
  rw [List.length_flatMap]
  have e : List.map (List.length ∘ f) (List.range m) = List.replicate m c := by
    rw [show List.length ∘ f = Function.const Nat c from funext fun j => h j]
    rw [List.map_const, List.length_range]
  rw [e, List.sum_replicate, smul_eq_mul]

theorem extractBits_length (img : RGBAImage) :
    (extractBits img).length =
      3 * ((img.maxX - img.minX + 1).toNat * (img.maxY - img.minY + 1).toNat) := by
  rw [extractBits_eq_spec]
  unfold extractBitsSpec
  rw [flatMapRange_const_length _ _ ((img.maxY - img.minY + 1).toNat * 3)
    (fun i => flatMapRange_const_length _ _ 3 (fun j => by simp [pixBits]))]
  ring

/-! ## Decoding: `bitsToString` and `getCharFromBits` -/

theorem bitsToString_cases (bits : List Nat) :
    (bits = [] ∧ bitsToString bits = some []) ∨
    (8 ≤ bits.length ∧ bitsToString bits =
      (bitsToString (bits.drop 8)).map fun out =>
        getCharFromBits (bits.take 8) :: out) ∨
    (1 ≤ bits.length ∧ bits.length < 8 ∧ bitsToString bits = none) := by
  rcases bits with _ | ⟨b1, _ | ⟨b2, _ | ⟨b3, _ | ⟨b4, _ | ⟨b5, _ | ⟨b6,
    _ | ⟨b7, _ | ⟨b8, t⟩⟩⟩⟩⟩⟩⟩⟩
  · exact Or.inl ⟨rfl, rfl⟩
  · exact Or.inr (Or.inr ⟨by simp, by simp, rfl⟩)
  · exact Or.inr (Or.inr ⟨by simp, by simp, rfl⟩)
  · exact Or.inr (Or.inr ⟨by simp, by simp, rfl⟩)
  · exact Or.inr (Or.inr ⟨by simp, by simp, rfl⟩)
  · exact Or.inr (Or.inr ⟨by simp, by simp, rfl⟩)
  · exact Or.inr (Or.inr ⟨by simp, by simp, rfl⟩)
  · exact Or.inr (Or.inr ⟨by simp, by simp, rfl⟩)
  · exact Or.inr (Or.inl ⟨by simp, rfl⟩)

theorem bitsToString_byte (l rest : List Nat) (h : l.length = 8) :
    bitsToString (l ++ rest) =
      (bitsToString rest).map fun out => getCharFromBits l :: out := by
  rcases l with _ | ⟨b1, _ | ⟨b2, _ | ⟨b3, _ | ⟨b4, _ | ⟨b5, _ | ⟨b6,
    _ | ⟨b7, _ | ⟨b8, t⟩⟩⟩⟩⟩⟩⟩⟩ <;> simp at h
  rcases t with _ | ⟨b9, t⟩
  · rfl
  · simp at h

theorem isSome_option_map {α β : Type} (f : α → β) (o : Option α) :
    (o.map f).isSome = o.isSome := by
  cases o <;> rfl

theorem bitsToString_isSome_aux : ∀ (n : Nat) (bits : List Nat),
    bits.length ≤ n →
    ((bitsToString bits).isSome ↔ bits.length % 8 = 0) := by
  intro n
  induction n with
  | zero =>
    intro bits h
    have hb : bits = [] := List.eq_nil_of_length_eq_zero (by omega)
    subst hb
    simp [bitsToString]
  | succ n ih =>
    intro bits h
    rcases bitsToString_cases bits with ⟨hb, he⟩ | ⟨hb, he⟩ | ⟨h1, h2, he⟩
    · subst hb
      simp [he]
    · rw [he, isSome_option_map]
      have hd : (bits.drop 8).length = bits.length - 8 := by simp
      rw [ih (bits.drop 8) (by simp; omega), hd]
      omega
    · rw [he]
      simp
      omega

theorem bitsToString_isSome_iff (bits : List Nat) :
    (bitsToString bits).isSome ↔ bits.length % 8 = 0 :=
  bitsToString_isSome_aux bits.length bits (le_refl _)

theorem getCharFromBits_byteBits : ∀ c, c < 256 →
    getCharFromBits (byteBits c) = c := by decide

theorem bitsToString_append_bytes :
    ∀ (cs rest : List Nat), (∀ c ∈ cs, c < 256) →
      bitsToString (cs.flatMap byteBits ++ rest) =
        (bitsToString rest).map fun t => cs ++ t := by
  intro cs
  induction cs with
  | nil =>
    intro rest h
    simp only [List.flatMap_nil, List.nil_append]
    cases bitsToString rest <;> simp
  | cons c cs ih =>
    intro rest h
    rw [List.flatMap_cons, List.append_assoc]
    rw [bitsToString_byte (byteBits c) _ (by simp [byteBits])]
    rw [ih _ (fun d hd => h d (List.mem_cons_of_mem c hd))]
    rw [getCharFromBits_byteBits c (h c (List.mem_cons_self c cs))]
    rw [Option.map_map]
    cases bitsToString rest <;> simp

/-! ## The sentinel search -/

theorem isPrefixOf_iff_take : ∀ (pat t : List Nat),
    (pat.isPrefixOf t = true ↔ t.take pat.length = pat) := by
  intro pat
  induction pat with
  | nil =>
    intro t
    simp [List.isPrefixOf]
  | cons a pa ih =>
    intro t
    cases t with
    | nil => simp [List.isPrefixOf]
    | cons b tb =>
      simp only [List.isPrefixOf, Bool.and_eq_true, beq_iff_eq, ih tb,
        List.length_cons, List.take_succ_cons, List.cons.injEq]
      constructor
      · rintro ⟨h1, h2⟩
        exact ⟨h1.symm, h2⟩
      · rintro ⟨h1, h2⟩
        exact ⟨h1.symm, h2⟩

theorem isPrefixOf_length_le : ∀ (pat t : List Nat),
    pat.isPrefixOf t = true → pat.length ≤ t.length := by
  intro pat t h
  rw [isPrefixOf_iff_take] at h
  have := congrArg List.length h
  simp at this
  omega

theorem isPrefixOf_append_of_le (pat b : List Nat) (r : List Nat)
    (h : pat.length ≤ b.length) :
    pat.isPrefixOf (b ++ r) = pat.isPrefixOf b := by
  by_cases hb : pat.isPrefixOf b = true
  · rw [hb]
    rw [isPrefixOf_iff_take] at hb ⊢
    rw [List.take_append_eq_append_take]
    rw [show pat.length - b.length = 0 from by omega]
    rw [List.take_zero, List.append_nil, hb]
  · rw [Bool.not_eq_true] at hb
    rw [hb]
    rw [Bool.eq_false_iff]
    intro hc
    rw [isPrefixOf_iff_take] at hc
    rw [List.take_append_eq_append_take] at hc
    rw [show pat.length - b.length = 0 from by omega] at hc
    rw [List.take_zero, List.append_nil] at hc
    rw [Bool.eq_false_iff] at hb
    exact hb (by rw [isPrefixOf_iff_take]; exact hc)

theorem isPrefixOf_self_append (pat r : List Nat) :
    pat.isPrefixOf (pat ++ r) = true := by
  rw [isPrefixOf_iff_take]
  exact List.take_left pat r

theorem findSub_some_occurs : ∀ (t pat : List Nat) (p : Nat),
    findSub pat t = some p →
    occursAt t pat p ∧ ∀ q, q < p → ¬ occursAt t pat q := by
  intro t
  induction t with
  | nil =>
    intro pat p h
    unfold findSub at h
    by_cases hp : pat.isPrefixOf ([] : List Nat) = true
    · rw [if_pos hp] at h
      injection h with h
      subst h
      exact ⟨hp, fun q hq => absurd hq (by omega)⟩
    · rw [if_neg hp] at h
      exact absurd h (by simp)
  | cons c rest ih =>
    intro pat p h
    unfold findSub at h
    by_cases hp : pat.isPrefixOf (c :: rest) = true
    · rw [if_pos hp] at h
      injection h with h
      subst h
      exact ⟨hp, fun q hq => absurd hq (by omega)⟩
    · rw [if_neg hp] at h
      cases hr : findSub pat rest with
      | none => rw [hr] at h; simp at h
      | some p0 =>
        rw [hr] at h
        have h : p0 + 1 = p := by
          simpa using h
        obtain ⟨h1, h2⟩ := ih pat p0 hr
        constructor
        · unfold occursAt
          rw [← h, List.drop_succ_cons]
          exact h1
        · intro q hq
          cases q with
          | zero =>
            unfold occursAt
            simpa using hp
          | succ q0 =>
            unfold occursAt
            rw [List.drop_succ_cons]
            exact h2 q0 (by omega)

theorem findSub_none_not_occurs : ∀ (t pat : List Nat),
    findSub pat t = none → ∀ q, ¬ occursAt t pat q := by
  intro t
  induction t with
  | nil =>
    intro pat h q
    unfold findSub at h
    by_cases hp : pat.isPrefixOf ([] : List Nat) = true
    · rw [if_pos hp] at h; simp at h
    · unfold occursAt
      rw [List.drop_nil]
      exact hp
  | cons c rest ih =>
    intro pat h q
    unfold findSub at h
    by_cases hp : pat.isPrefixOf (c :: rest) = true
    · rw [if_pos hp] at h; simp at h
    · rw [if_neg hp] at h
      cases hr : findSub pat rest with
      | some p0 => rw [hr] at h; simp at h
      | none =>
        cases q with
        | zero =>
          unfold occursAt
          simpa using hp
        | succ q0 =>
          unfold occursAt
          rw [List.drop_succ_cons]
          exact ih pat hr q0

theorem findSub_eq_some_of_occurs : ∀ (t pat : List Nat) (p : Nat),
    occursAt t pat p → (∀ q, q < p → ¬ occursAt t pat q) →
    findSub pat t = some p := by
  intro t
  induction t with
  | nil =>
    intro pat p h1 h2
    cases p with
    | zero =>
      unfold occursAt at h1
      rw [List.drop_zero] at h1
      unfold findSub
      rw [if_pos h1]
    | succ p0 =>
      exfalso
      refine h2 0 (by omega) ?_
      unfold occursAt at h1 ⊢
      simpa using h1
  | cons c rest ih =>
    intro pat p h1 h2
    cases p with
    | zero =>
      unfold occursAt at h1
      rw [List.drop_zero] at h1
      unfold findSub
      rw [if_pos h1]
    | succ p0 =>
      have hp : ¬ pat.isPrefixOf (c :: rest) = true := by
        have := h2 0 (by omega)
        unfold occursAt at this
        simpa using this
      unfold findSub
      rw [if_neg hp]
      have hrec : findSub pat rest = some p0 := by
        refine ih pat p0 ?_ ?_
        · unfold occursAt at h1 ⊢
          rw [List.drop_succ_cons] at h1
          exact h1
        · intro q hq
          have := h2 (q + 1) (by omega)
          unfold occursAt at this ⊢
          rw [List.drop_succ_cons] at this
          exact this
      rw [hrec]
      rfl

theorem findSub_append_of_first (s pat r : List Nat)
    (h : findSub pat (s ++ pat) = some s.length) :
    findSub pat (s ++ pat ++ r) = some s.length := by
  obtain ⟨h1, h2⟩ := findSub_some_occurs (s ++ pat) pat s.length h
  apply findSub_eq_some_of_occurs
  · unfold occursAt
    rw [List.append_assoc, List.drop_left]
    exact isPrefixOf_self_append pat r
  · intro q hq
    unfold occursAt
    rw [List.drop_append_eq_append_drop]
    rw [show q - (s ++ pat).length = 0 from by simp; omega]
    rw [List.drop_zero]
    rw [isPrefixOf_append_of_le pat _ r (by simp; omega)]
    exact h2 q hq

/-! ## Serialization lemmas -/

theorem natToBinAux_bits : ∀ (fuel n : Nat) (acc : List Nat),
    (∀ b ∈ acc, b = 0 ∨ b = 1) →
    ∀ b ∈ natToBinAux fuel n acc, b = 0 ∨ b = 1 := by
  intro fuel
  induction fuel with
  | zero =>
    intro n acc h
    cases n with
    | zero => simpa [natToBinAux] using h
    | succ m => simpa [natToBinAux] using h
  | succ f ih =>
    intro n acc h
    cases n with
    | zero => simpa [natToBinAux] using h
    | succ m =>
      simp only [natToBinAux]
      refine ih ((m + 1) / 2) _ ?_
      intro b hb
      rcases List.mem_cons.mp hb with hb | hb
      · subst hb
        omega
      · exact h b hb

theorem natToBin_bits (n : Nat) : ∀ b ∈ natToBin n, b = 0 ∨ b = 1 := by
  unfold natToBin
  split
  · intro b hb
    simp at hb
    omega
  · exact natToBinAux_bits n n [] (by intro b hb; simp at hb)

theorem stringToBinary_bits (s : List Nat) :
    ∀ b ∈ stringToBinary s, b = 0 ∨ b = 1 := by
  intro b hb
  unfold stringToBinary at hb
  rw [List.mem_flatMap] at hb
  obtain ⟨c, _, hb⟩ := hb
  unfold pad8 at hb
  rcases List.mem_append.mp hb with hb | hb
  · rw [List.mem_replicate] at hb
    omega
  · exact natToBin_bits c b hb

theorem pad8_natToBin_byte : ∀ c, c < 256 → pad8 (natToBin c) = byteBits c := by
  decide

theorem stringToBinary_bytes : ∀ (s : List Nat), (∀ c ∈ s, c < 256) →
    stringToBinary s = s.flatMap byteBits := by
  intro s
  induction s with
  | nil => intro h; rfl
  | cons c cs ih =>
    intro h
    unfold stringToBinary at ih ⊢
    rw [List.flatMap_cons, List.flatMap_cons]
    rw [pad8_natToBin_byte c (h c (List.mem_cons_self c cs))]
    rw [ih (fun d hd => h d (List.mem_cons_of_mem c hd))]

theorem flatMap_byteBits_length (s : List Nat) :
    (s.flatMap byteBits).length = 8 * s.length := by
  induction s with
  | nil => rfl
  | cons c cs ih =>
    rw [List.flatMap_cons, List.length_append, ih]
    simp [byteBits]
    ring

theorem stopSteg_lt256 : ∀ c ∈ stopSteg, c < 256 := by decide

theorem loadSecret_eq (s : List Nat) (h : ∀ c ∈ s, c < 256) :
    loadSecret s = (s ++ stopSteg).flatMap byteBits := by
  unfold loadSecret
  apply stringToBinary_bytes
  intro c hc
  rcases List.mem_append.mp hc with hc | hc
  · exact h c hc
  · exact stopSteg_lt256 c hc

theorem loadSecret_length (s : List Nat) (h : ∀ c ∈ s, c < 256) :
    (loadSecret s).length = 8 * (s.length + 13) := by
  rw [loadSecret_eq s h, flatMap_byteBits_length]
  simp [stopSteg]

theorem loadSecret_bits (s : List Nat) :
    ∀ b ∈ loadSecret s, b = 0 ∨ b = 1 :=
  stringToBinary_bits (s ++ stopSteg)

/-! ## Round-trip assembly helpers -/

theorem flatMap_congr (l : List Nat) (f g : Nat → List Nat)
    (h : ∀ a ∈ l, f a = g a) : l.flatMap f = l.flatMap g := by
  induction l with
  | nil => rfl
  | cons c cs ih =>
    rw [List.flatMap_cons, List.flatMap_cons,
      h c (List.mem_cons_self c cs),
      ih (fun a ha => h a (List.mem_cons_of_mem c ha))]

theorem flatMap_triple (m : Nat) (f : Nat → Nat) :
    ((List.range m).flatMap fun j => [f (3 * j), f (3 * j + 1), f (3 * j + 2)]) =
      (List.range (3 * m)).map f := by
  induction m with
  | zero => rfl
  | succ n ih =>
    rw [List.range_succ, List.flatMap_append, ih]
    rw [show 3 * (n + 1) = 3 * n + 1 + 1 + 1 from by ring]
    rw [List.range_succ, List.range_succ, List.range_succ]
    simp [List.map_append, List.flatMap_append, List.append_assoc]

theorem map_range_getD (l : List Nat) (f : Nat → Nat)
    (h : ∀ k, k < l.length → f k = l.getD k 0) :
    (List.range l.length).map f = l := by
  apply List.ext_getElem
  · simp
  · intro n h1 h2
    rw [List.getElem_map, List.getElem_range]
    rw [h n (by simpa using h2), List.getD_eq_getElem l 0 h2]

theorem mutableCopy_minX (src : RGBAImage) : (mutableCopy src).minX = src.minX := rfl

theorem mutableCopy_minY (src : RGBAImage) : (mutableCopy src).minY = src.minY := rfl

theorem mutableCopy_maxX (src : RGBAImage) : (mutableCopy src).maxX = src.maxX := rfl

theorem mutableCopy_maxY (src : RGBAImage) : (mutableCopy src).maxY = src.maxY := rfl

theorem mutableCopy_pix (src : RGBAImage) (x y : Int) :
    (mutableCopy src).pix x y = src.At x y := rfl

theorem colRef_lt (src : RGBAImage) (bits : List Nat) (k : Nat)
    (h : k < bits.length) : colRef src bits k = bits.getD k 0 := by
  unfold colRef
  rw [if_pos h]

theorem colRef_ge (src : RGBAImage) (bits : List Nat) (k : Nat)
    (h : ¬ k < bits.length) :
    colRef src bits k =
      (pixBits (src.At 0 ((k / 3 : Nat) : Int))).getD (k % 3) 0 := by
  unfold colRef
  rw [if_neg h]

theorem embedChan_r (p : Pixel) (bits : List Nat) (pos : Nat) :
    (embedChan p bits pos).r = manipulateLSB (p.r * 257) (bits.getD pos 0) := rfl

theorem embedChan_g (p : Pixel) (bits : List Nat) (pos : Nat) :
    (embedChan p bits pos).g =
      if pos + 1 < bits.length then manipulateLSB (p.g * 257) (bits.getD (pos + 1) 0)
      else p.g * 257 % 256 := rfl

theorem embedChan_b (p : Pixel) (bits : List Nat) (pos : Nat) :
    (embedChan p bits pos).b =
      if pos + 2 < bits.length then manipulateLSB (p.b * 257) (bits.getD (pos + 2) 0)
      else p.b * 257 % 256 := rfl

theorem embedChan_a (p : Pixel) (bits : List Nat) (pos : Nat) :
    (embedChan p bits pos).a = p.a * 257 / 257 % 256 := rfl

theorem scale_mod256_mod2 (v : Nat) : v * 257 % 256 % 2 = v % 2 := by omega

theorem loadSecret_getD_bit (s : List Nat) (k : Nat)
    (h : k < (loadSecret s).length) :
    (loadSecret s).getD k 0 = 0 ∨ (loadSecret s).getD k 0 = 1 := by
  rw [List.getD_eq_getElem _ 0 h]
  exact loadSecret_bits s _ (List.getElem_mem h)

theorem embed_extract_split (src : RGBAImage) (secret : List Nat)
    (h0x : src.minX = 0) (h0y : src.minY = 0)
    (hW : 1 ≤ src.maxX) (hV : Valid8 src)
    (hbyte : ∀ c ∈ secret, c < 256)
    (hfit : (8 * (secret.length + 13) : Int) ≤ 3 * src.maxY) :
    ∃ rest : List Nat,
      extractBits (embedSecret (mutableCopy src) (loadSecret secret)).2 =
        loadSecret secret ++ rest := by
  have hlen : (loadSecret secret).length = 8 * (secret.length + 13) :=
    loadSecret_length secret hbyte
  have hmY : 0 < src.maxY := by omega
  have hLle : (loadSecret secret).length ≤ 3 * src.maxY.toNat := by omega
  have hcap : ¬ ((loadSecret secret).length : Int) >
      (mutableCopy src).maxX * (mutableCopy src).maxY * 3 := by
    rw [mutableCopy_maxX, mutableCopy_maxY]
    push_neg
    have h1 : (1 : Int) * (src.maxY * 3) ≤ src.maxX * (src.maxY * 3) :=
      mul_le_mul_of_nonneg_right hW (by omega)
    have h2 : src.maxX * (src.maxY * 3) = src.maxX * src.maxY * 3 := by ring
    omega
  generalize hE : (embedSecret (mutableCopy src) (loadSecret secret)).2 = emb
  have hbE : emb.minX = 0 ∧ emb.minY = 0 ∧
      emb.maxX = src.maxX ∧ emb.maxY = src.maxY := by
    have h := embedSecret_bounds (mutableCopy src) (loadSecret secret)
    rw [hE, mutableCopy_minX, mutableCopy_minY, mutableCopy_maxX,
      mutableCopy_maxY] at h
    exact ⟨by rw [h.1, h0x], by rw [h.2.1, h0y], h.2.2.1, h.2.2.2⟩
  have hpix : ∀ u v : Int, emb.pix u v =
      if 0 ≤ u ∧ u < src.maxX ∧ 0 ≤ v ∧ v < src.maxY ∧
          3 * (src.maxY.toNat * (u - 0).toNat + (v - 0).toNat) <
            (loadSecret secret).length then
        embedChan (src.At u v) (loadSecret secret)
          (3 * (src.maxY.toNat * (u - 0).toNat + (v - 0).toNat))
      else src.At u v := by
    intro u v
    have h := embedSecret_pix (mutableCopy src) (loadSecret secret) hcap u v
    rw [hE] at h
    rw [h]
    simp only [mutableCopy_minX, mutableCopy_minY, mutableCopy_maxX,
      mutableCopy_maxY, mutableCopy_pix, h0x, h0y, sub_zero]
  rw [extractBits_eq_spec emb]
  unfold extractBitsSpec
  simp only [hbE.1, hbE.2.1, hbE.2.2.1, hbE.2.2.2, sub_zero, zero_add]
  rw [show (src.maxX + 1).toNat = 1 + ((src.maxX + 1).toNat - 1) from by omega]
  rw [List.range_add, List.flatMap_append]
  rw [show List.range 1 = [0] from rfl]
  rw [List.flatMap_cons, List.flatMap_nil, List.append_nil]
  rw [show (src.maxY + 1).toNat = src.maxY.toNat + 1 from by omega]
  rw [List.range_succ, List.flatMap_append, List.flatMap_cons,
    List.flatMap_nil, List.append_nil]
  have hAtCorner :
      emb.At ((0 : Nat) : Int) ((src.maxY.toNat : Nat) : Int) = ⟨0, 0, 0, 0⟩ := by
    unfold RGBAImage.At
    rw [if_neg]
    rintro ⟨-, -, -, h4⟩
    rw [hbE.2.2.2] at h4
    omega
  rw [hAtCorner]
  have hcol : ∀ j ∈ List.range src.maxY.toNat,
      (fun j => pixBits (emb.At ((0 : Nat) : Int) ((j : Nat) : Int))) j =
      (fun j => [colRef src (loadSecret secret) (3 * j),
        colRef src (loadSecret secret) (3 * j + 1),
        colRef src (loadSecret secret) (3 * j + 2)]) j := by
    intro j hj
    rw [List.mem_range] at hj
    have hjY : ((j : Nat) : Int) < src.maxY := by omega
    show pixBits (emb.At ((0 : Nat) : Int) ((j : Nat) : Int)) = _
    have hAt : emb.At ((0 : Nat) : Int) ((j : Nat) : Int) =
        emb.pix ((0 : Nat) : Int) ((j : Nat) : Int) := by
      apply RGBAImage.At_eq_pix
      · rw [hbE.1]; omega
      · rw [hbE.2.2.1]; omega
      · rw [hbE.2.1]; omega
      · rw [hbE.2.2.2]; exact hjY
    rw [hAt, hpix _ _]
    simp only [Nat.cast_zero, sub_zero, Int.toNat_zero, Int.toNat_natCast,
      Nat.mul_zero, Nat.zero_add]
    by_cases h3 : 3 * j < (loadSecret secret).length
    · rw [if_pos ⟨by omega, by omega, by omega, hjY, h3⟩]
      have hr : manipulateLSB (((src.At 0 (j : Int)).r) * 257)
          ((loadSecret secret).getD (3 * j) 0) % 2 =
          colRef src (loadSecret secret) (3 * j) := by
        rw [colRef_lt src _ _ h3]
        exact manipulateLSB_mod2 _ _ (loadSecret_getD_bit secret _ h3)
      have hg : (if 3 * j + 1 < (loadSecret secret).length then
            manipulateLSB (((src.At 0 (j : Int)).g) * 257)
              ((loadSecret secret).getD (3 * j + 1) 0)
          else ((src.At 0 (j : Int)).g) * 257 % 256) % 2 =
          colRef src (loadSecret secret) (3 * j + 1) := by
        by_cases h4 : 3 * j + 1 < (loadSecret secret).length
        · rw [if_pos h4, colRef_lt src _ _ h4]
          exact manipulateLSB_mod2 _ _ (loadSecret_getD_bit secret _ h4)
        · rw [if_neg h4, colRef_ge src _ _ h4]
          rw [show (3 * j + 1) / 3 = j from by omega,
            show (3 * j + 1) % 3 = 1 from by omega]
          rw [show (pixBits (src.At 0 ((j : Nat) : Int))).getD 1 0 =
            (src.At 0 ((j : Nat) : Int)).g % 2 from rfl]
          exact scale_mod256_mod2 _
      have hb : (if 3 * j + 2 < (loadSecret secret).length then
            manipulateLSB (((src.At 0 (j : Int)).b) * 257)
              ((loadSecret secret).getD (3 * j + 2) 0)
          else ((src.At 0 (j : Int)).b) * 257 % 256) % 2 =
          colRef src (loadSecret secret) (3 * j + 2) := by
        by_cases h4 : 3 * j + 2 < (loadSecret secret).length
        · rw [if_pos h4, colRef_lt src _ _ h4]
          exact manipulateLSB_mod2 _ _ (loadSecret_getD_bit secret _ h4)
        · rw [if_neg h4, colRef_ge src _ _ h4]
          rw [show (3 * j + 2) / 3 = j from by omega,
            show (3 * j + 2) % 3 = 2 from by omega]
          rw [show (pixBits (src.At 0 ((j : Nat) : Int))).getD 2 0 =
            (src.At 0 ((j : Nat) : Int)).b % 2 from rfl]
          exact scale_mod256_mod2 _
      unfold pixBits
      rw [embedChan_r, embedChan_g, embedChan_b]
      rw [hr, hg, hb]
    · rw [if_neg (by rintro ⟨-, -, -, -, hP⟩; exact h3 hP)]
      have e1 : ¬ 3 * j < (loadSecret secret).length := h3
      have e2 : ¬ 3 * j + 1 < (loadSecret secret).length := by omega
      have e3 : ¬ 3 * j + 2 < (loadSecret secret).length := by omega
      rw [show [colRef src (loadSecret secret) (3 * j),
          colRef src (loadSecret secret) (3 * j + 1),
          colRef src (loadSecret secret) (3 * j + 2)] =
        [(pixBits (src.At 0 ((j : Nat) : Int))).getD 0 0,
         (pixBits (src.At 0 ((j : Nat) : Int))).getD 1 0,
         (pixBits (src.At 0 ((j : Nat) : Int))).getD 2 0] from by
        rw [colRef_ge src _ _ e1, colRef_ge src _ _ e2, colRef_ge src _ _ e3]
        rw [show 3 * j / 3 = j from by omega, show 3 * j % 3 = 0 from by omega,
          show (3 * j + 1) / 3 = j from by omega,
          show (3 * j + 1) % 3 = 1 from by omega,
          show (3 * j + 2) / 3 = j from by omega,
          show (3 * j + 2) % 3 = 2 from by omega]]
      rfl
  rw [flatMap_congr _ _ _ hcol]
  rw [flatMap_triple src.maxY.toNat (colRef src (loadSecret secret))]
  rw [show 3 * src.maxY.toNat =
    (loadSecret secret).length + (3 * src.maxY.toNat - (loadSecret secret).length)
    from by omega]
  rw [List.range_add, List.map_append]
  have hfirst : (List.range (loadSecret secret).length).map
      (colRef src (loadSecret secret)) = loadSecret secret := by
    apply map_range_getD
    intro k hk
    exact colRef_lt src _ k hk
  rw [hfirst]
  exact ⟨_, by rw [List.append_assoc, List.append_assoc]⟩

theorem roundTrip_ok (src : RGBAImage) (secret : List Nat)
    (h0x : src.minX = 0) (h0y : src.minY = 0)
    (hW : 1 ≤ src.maxX) (hV : Valid8 src)
    (hbyte : ∀ c ∈ secret, c < 256)
    (hfit : (8 * (secret.length + 13) : Int) ≤ 3 * src.maxY)
    (hmod : ((src.maxX + 1).toNat * (src.maxY + 1).toNat * 3) % 8 = 0)
    (hsent : findSub stopSteg (secret ++ stopSteg) = some secret.length) :
    roundTrip src secret = some (Except.ok secret) := by
  obtain ⟨rest, hsplit⟩ := embed_extract_split src secret h0x h0y hW hV hbyte hfit
  have hlen : (loadSecret secret).length = 8 * (secret.length + 13) :=
    loadSecret_length secret hbyte
  have hmY : 0 < src.maxY := by omega
  have hcap : ¬ ((loadSecret secret).length : Int) >
      (mutableCopy src).maxX * (mutableCopy src).maxY * 3 := by
    rw [mutableCopy_maxX, mutableCopy_maxY]
    push_neg
    have h1 : (1 : Int) * (src.maxY * 3) ≤ src.maxX * (src.maxY * 3) :=
      mul_le_mul_of_nonneg_right hW (by omega)
    have h2 : src.maxX * (src.maxY * 3) = src.maxX * src.maxY * 3 := by ring
    omega
  have htotal : (extractBits
      (embedSecret (mutableCopy src) (loadSecret secret)).2).length =
      3 * ((src.maxX + 1).toNat * (src.maxY + 1).toNat) := by
    rw [extractBits_length]
    have hb := embedSecret_bounds (mutableCopy src) (loadSecret secret)
    rw [hb.1, hb.2.1, hb.2.2.1, hb.2.2.2, mutableCopy_minX, mutableCopy_minY,
      mutableCopy_maxX, mutableCopy_maxY, h0x, h0y, sub_zero, sub_zero]
  have hrest8 : rest.length % 8 = 0 := by
    have hL := congrArg List.length hsplit
    rw [List.length_append] at hL
    omega
  obtain ⟨t, ht⟩ : ∃ t, bitsToString rest = some t :=
    Option.isSome_iff_exists.mp ((bitsToString_isSome_iff rest).mpr hrest8)
  have hchars : ∀ c ∈ secret ++ stopSteg, c < 256 := by
    intro c hc
    rcases List.mem_append.mp hc with hc | hc
    · exact hbyte c hc
    · exact stopSteg_lt256 c hc
  have hdecode : bitsToString (extractBits
      (embedSecret (mutableCopy src) (loadSecret secret)).2) =
      some ((secret ++ stopSteg) ++ t) := by
    rw [hsplit, loadSecret_eq secret hbyte]
    rw [bitsToString_append_bytes (secret ++ stopSteg) rest hchars]
    rw [ht]
    rfl
  have hfind : findSub stopSteg ((secret ++ stopSteg) ++ t) =
      some secret.length :=
    findSub_append_of_first secret stopSteg t hsent
  rcases hEmb : embedSecret (mutableCopy src) (loadSecret secret) with ⟨f, out⟩
  have hf : f = none := by
    have h := embedSecret_fst (mutableCopy src) (loadSecret secret)
    rw [hEmb, if_neg hcap] at h
    exact h
  subst hf
  have hsnd : (embedSecret (mutableCopy src) (loadSecret secret)).2 = out := by
    rw [hEmb]
  rw [hsnd] at hdecode
  have hDo : DoStegEmbed (some src) secret = Except.ok out := by
    show (match embedSecret (mutableCopy src) (loadSecret secret) with
          | (some e, _) => Except.error e
          | (none, o) => Except.ok o) = Except.ok out
    rw [hEmb]
  unfold roundTrip
  rw [hDo]
  show getSecretString out = some (Except.ok secret)
  unfold getSecretString
  rw [hdecode]
  show some (match findSub stopSteg ((secret ++ stopSteg) ++ t) with
    | some p => Except.ok (((secret ++ stopSteg) ++ t).take p)
    | none => Except.error "error finding embedded secret string") =
    some (Except.ok secret)
  rw [hfind]
  show some (Except.ok (((secret ++ stopSteg) ++ t).take secret.length)) =
    some (Except.ok secret)
  rw [List.append_assoc, List.take_left]

/-! ## Claim theorems -/

theorem blackImage_valid8 (w h : Int) : Valid8 (blackImage w h) :=
  fun _ _ =>
    ⟨(by decide : (0 : Nat) < 256), (by decide : (0 : Nat) < 256),
     (by decide : (0 : Nat) < 256), (by decide : (255 : Nat) < 256)⟩

/-- Claim C1, counterexample: the secret `"Karl"` is printable ASCII and
`8*(len+13) = 136` fits the claimed capacity `width*height*3 = 147` of a
7x7 buffer, yet extracting from the buffer produced by embedding fails
(the inclusive-bound extraction scan inserts three zero bits after every
column, misaligning every payload bit past the first column), so the
round-trip claim is false as stated. -/
theorem C1_counterexample :
    (∀ c ∈ karlStr, 32 ≤ c ∧ c ≤ 126) ∧
    ((8 * (karlStr.length + 13) : Int) ≤
      ((blackImage 7 7).maxX - (blackImage 7 7).minX) *
        ((blackImage 7 7).maxY - (blackImage 7 7).minY) * 3) ∧
    roundTrip (blackImage 7 7) karlStr =
      some (Except.error "error finding embedded secret string") := by
  refine ⟨by decide, by decide, ?_⟩
  rfl

/-- Claim C1 (amended): the round-trip holds for printable-ASCII secrets
whose whole serialized payload fits in the first pixel column
(`8*(len(s)+13) ≤ 3*height`, the only region the inclusive-bound
extraction scan reads in the same order as embedding), on a zero-origin
buffer whose inclusive scan total `3*(w+1)*(h+1)` is a multiple of 8,
provided the first occurrence of the sentinel in `s ++ sentinel` is at
offset `len(s)`. -/
theorem C1_roundTrip_amended (src : RGBAImage) (secret : List Nat)
    (h0x : src.minX = 0) (h0y : src.minY = 0)
    (hW : 1 ≤ src.maxX) (hV : Valid8 src)
    (hascii : ∀ c ∈ secret, 32 ≤ c ∧ c ≤ 126)
    (hfit : (8 * (secret.length + 13) : Int) ≤ 3 * src.maxY)
    (hmod : ((src.maxX + 1).toNat * (src.maxY + 1).toNat * 3) % 8 = 0)
    (hsent : findSub stopSteg (secret ++ stopSteg) = some secret.length) :
    roundTrip src secret = some (Except.ok secret) :=
  roundTrip_ok src secret h0x h0y hW hV
    (fun c hc => by have := hascii c hc; omega) hfit hmod hsent

/-- Claim C1 witness: embedding `"K"` into a 1x39 all-black buffer and
extracting recovers `"K"`. -/
theorem C1_roundTrip_witness :
    roundTrip (blackImage 1 39) [75] = some (Except.ok [75]) :=
  C1_roundTrip_amended (blackImage 1 39) [75] rfl rfl (by decide)
    (blackImage_valid8 1 39) (by decide) (by decide) (by decide) (by decide)

/-- Claim C2: the extraction traversal is the same nested order as
embedding (x outer, y inner, both ascending) but over the inclusive
maximum bound on both axes, reading one parity bit from each of the
red, green and blue channels of every visited pixel, in visitation
order; it visits `(w+1)*(h+1)` pixels — one more row and one more
column than the embed traversal's `w*h`. -/
theorem C2_extract_traversal (img : RGBAImage)
    (hx : img.minX ≤ img.maxX) (hy : img.minY ≤ img.maxY) :
    extractBits img = extractBitsSpec img ∧
    (extractBits img).length =
      3 * (((img.maxX - img.minX).toNat + 1) *
        ((img.maxY - img.minY).toNat + 1)) := by
  refine ⟨extractBits_eq_spec img, ?_⟩
  rw [extractBits_length]
  rw [show (img.maxX - img.minX + 1).toNat = (img.maxX - img.minX).toNat + 1
    from by omega]
  rw [show (img.maxY - img.minY + 1).toNat = (img.maxY - img.minY).toNat + 1
    from by omega]

/-- Claim C2 witness at a 1x1 buffer. -/
theorem C2_extract_traversal_witness :
    extractBits (blackImage 1 1) = extractBitsSpec (blackImage 1 1) ∧
    (extractBits (blackImage 1 1)).length =
      3 * ((((blackImage 1 1).maxX - (blackImage 1 1).minX).toNat + 1) *
        (((blackImage 1 1).maxY - (blackImage 1 1).minY).toNat + 1)) :=
  C2_extract_traversal (blackImage 1 1) (by decide) (by decide)

/-- Claim C3, counterexample: for a buffer on the rectangle
(5,5)-(6,6), `width*height*3 = 3`, so by the claim a 12-bit stream must
fail with `CapacityExceeded`; the code compares against
`Max.X*Max.Y*3 = 108` instead and the embedding succeeds. -/
theorem C3_counterexample :
    (List.replicate 12 0).length = 12 ∧
    ((offsetImage.maxX - offsetImage.minX) *
      (offsetImage.maxY - offsetImage.minY) * 3 : Int) = 3 ∧
    (embedSecret offsetImage (List.replicate 12 0)).1 = none := by
  refine ⟨by decide, by decide, ?_⟩
  rfl

/-- Claim C3 (amended): embedding fails with `CapacityExceeded` exactly
when the bitstream's length exceeds `Max.X * Max.Y * 3`, which equals
`width * height * 3` for buffers with a zero origin (every decoded
image); the check happens before any pixel is mutated, so on failure
the buffer is unchanged; in particular the 4x4 example with `"Karl"`
(136 bits against 48) fails. -/
theorem C3_capacity_amended (img : RGBAImage) (bits : List Nat) :
    ((embedSecret img bits).1 = some "not enough pixels to hide secret" ↔
      (bits.length : Int) > img.maxX * img.maxY * 3) ∧
    ((bits.length : Int) > img.maxX * img.maxY * 3 →
      (embedSecret img bits).2 = img) ∧
    (img.minX = 0 → img.minY = 0 →
      ((embedSecret img bits).1 = some "not enough pixels to hide secret" ↔
        (bits.length : Int) >
          (img.maxX - img.minX) * (img.maxY - img.minY) * 3)) ∧
    (embedSecret (blackImage 4 4) (loadSecret karlStr)).1 =
      some "not enough pixels to hide secret" := by
  have key : ((embedSecret img bits).1 =
      some "not enough pixels to hide secret" ↔
      (bits.length : Int) > img.maxX * img.maxY * 3) := by
    rw [embedSecret_fst]
    by_cases h : (bits.length : Int) > img.maxX * img.maxY * 3
    · rw [if_pos h]
      simp [h]
    · rw [if_neg h]
      simp [h]
  refine ⟨key, fun h => embedSecret_snd_err img bits h, ?_, ?_⟩
  · intro hx0 hy0
    rw [hx0, hy0, sub_zero, sub_zero]
    exact key
  · rfl

/-- Claim C3 witness: the 4x4 `"Karl"` example fails through the
amended equivalence. -/
theorem C3_capacity_witness :
    (embedSecret (blackImage 4 4) (loadSecret karlStr)).1 =
      some "not enough pixels to hide secret" :=
  (C3_capacity_amended (blackImage 4 4) (loadSecret karlStr)).2.2.2

/-- Claim C4: the embedding traversal is x outer, y inner, both
ascending over the exclusive bounds; a visited pixel at column-major
position `pos` has its red channel written from bit `pos`, its green
and blue channels written from bits `pos+1` and `pos+2` only while bits
remain (otherwise kept equal to the source), alpha kept, and every
pixel past the point where the stream is exhausted is byte-identical to
the source. -/
theorem C4_embed_traversal (img : RGBAImage) (bits : List Nat) (x y : Int)
    (hcap : (bits.length : Int) ≤ img.maxX * img.maxY * 3)
    (hV : Valid8 img) :
    (embedSecret img bits).2.pix x y =
      if img.minX ≤ x ∧ x < img.maxX ∧ img.minY ≤ y ∧ y < img.maxY ∧
          3 * ((img.maxY - img.minY).toNat * (x - img.minX).toNat +
            (y - img.minY).toNat) < bits.length then
        { r := manipulateLSB ((img.pix x y).r * 257)
            (bits.getD (3 * ((img.maxY - img.minY).toNat *
              (x - img.minX).toNat + (y - img.minY).toNat)) 0)
        , g := if 3 * ((img.maxY - img.minY).toNat * (x - img.minX).toNat +
              (y - img.minY).toNat) + 1 < bits.length then
            manipulateLSB ((img.pix x y).g * 257)
              (bits.getD (3 * ((img.maxY - img.minY).toNat *
                (x - img.minX).toNat + (y - img.minY).toNat) + 1) 0)
          else (img.pix x y).g
        , b := if 3 * ((img.maxY - img.minY).toNat * (x - img.minX).toNat +
              (y - img.minY).toNat) + 2 < bits.length then
            manipulateLSB ((img.pix x y).b * 257)
              (bits.getD (3 * ((img.maxY - img.minY).toNat *
                (x - img.minX).toNat + (y - img.minY).toNat) + 2) 0)
          else (img.pix x y).b
        , a := (img.pix x y).a }
      else img.pix x y := by
  obtain ⟨hr8, hg8, hb8, ha8⟩ := hV x y
  rw [embedSecret_pix img bits (by omega) x y]
  by_cases hc : img.minX ≤ x ∧ x < img.maxX ∧ img.minY ≤ y ∧ y < img.maxY ∧
      3 * ((img.maxY - img.minY).toNat * (x - img.minX).toNat +
        (y - img.minY).toNat) < bits.length
  · rw [if_pos hc, if_pos hc]
    unfold embedChan
    have hg2 : (img.pix x y).g * 257 % 256 = (img.pix x y).g := by
      have := mul257_mod256 (img.pix x y).g
      omega
    have hb2 : (img.pix x y).b * 257 % 256 = (img.pix x y).b := by
      have := mul257_mod256 (img.pix x y).b
      omega
    have ha2 : (img.pix x y).a * 257 / 257 % 256 = (img.pix x y).a := by
      have := mul257_div257 (img.pix x y).a
      omega
    rw [hg2, hb2, ha2]
  · rw [if_neg hc, if_neg hc]

/-- Claim C4 witness: the first pixel of a 2x2 black buffer embedding
the stream `[1,0,1]` takes the three bits on its red, green, blue
channels. -/
theorem C4_embed_traversal_witness :
    (embedSecret (blackImage 2 2) [1, 0, 1]).2.pix 0 0 = ⟨1, 0, 1, 255⟩ :=
  (C4_embed_traversal (blackImage 2 2) [1, 0, 1] 0 0 (by decide)
    (blackImage_valid8 2 2)).trans (by decide)

/-- Claim C5: writing a payload bit forces the channel's least
significant bit to that bit, preserves the remaining seven bits
exactly, perturbs the 8-bit value by at most 1, and consequently every
red, green, blue channel of every pixel differs from the source by at
most 1 after embedding. -/
theorem C5_lsb_perturbation (i bit : Nat) (img : RGBAImage)
    (bits : List Nat) (x y : Int)
    (hbit : bit = 0 ∨ bit = 1) (hV : Valid8 img) :
    manipulateLSB i bit % 2 = bit ∧
    manipulateLSB i bit / 2 = i % 256 / 2 ∧
    ((i % 256 : Nat) - (manipulateLSB i bit : Nat) : Int).natAbs ≤ 1 ∧
    (((img.pix x y).r : Int) -
      ((embedSecret img bits).2.pix x y).r).natAbs ≤ 1 ∧
    (((img.pix x y).g : Int) -
      ((embedSecret img bits).2.pix x y).g).natAbs ≤ 1 ∧
    (((img.pix x y).b : Int) -
      ((embedSecret img bits).2.pix x y).b).natAbs ≤ 1 := by
  obtain ⟨hr8, hg8, hb8, ha8⟩ := hV x y
  have hch : ∀ (v b2 : Nat), v < 256 →
      ((v : Int) - (manipulateLSB (v * 257) b2 : Nat)).natAbs ≤ 1 := by
    intro v b2 hv
    have he : manipulateLSB (v * 257) b2 = manipulateLSB v b2 := by
      rw [manipulateLSB_eq, manipulateLSB_eq, mul257_mod256]
    rw [he]
    have hd := manipulateLSB_diff v b2
    have hm : v % 256 = v := by omega
    rw [hm] at hd
    exact hd
  refine ⟨manipulateLSB_mod2 i bit hbit, manipulateLSB_div2 i bit,
    manipulateLSB_diff i bit, ?_⟩
  by_cases hcap : (bits.length : Int) > img.maxX * img.maxY * 3
  · rw [embedSecret_snd_err img bits hcap]
    refine ⟨?_, ?_, ?_⟩ <;> · rw [sub_self]; decide
  · rw [embedSecret_pix img bits hcap x y]
    by_cases hc : img.minX ≤ x ∧ x < img.maxX ∧ img.minY ≤ y ∧ y < img.maxY ∧
        3 * ((img.maxY - img.minY).toNat * (x - img.minX).toNat +
          (y - img.minY).toNat) < bits.length
    · rw [if_pos hc]
      rw [embedChan_r, embedChan_g, embedChan_b]
      refine ⟨hch _ _ hr8, ?_, ?_⟩
      · split
        · exact hch _ _ hg8
        · have := mul257_mod256 (img.pix x y).g
          have hm : (img.pix x y).g * 257 % 256 = (img.pix x y).g := by omega
          rw [hm, sub_self]
          decide
      · split
        · exact hch _ _ hb8
        · have := mul257_mod256 (img.pix x y).b
          have hm : (img.pix x y).b * 257 % 256 = (img.pix x y).b := by omega
          rw [hm, sub_self]
          decide
    · rw [if_neg hc]
      refine ⟨?_, ?_, ?_⟩ <;> · rw [sub_self]; decide

/-- Claim C5 witness at `i = 7`, `bit = 1`, a 1x1 black buffer and the
stream `[1]`. -/
theorem C5_lsb_perturbation_witness :
    manipulateLSB 7 1 % 2 = 1 ∧
    manipulateLSB 7 1 / 2 = 7 % 256 / 2 ∧
    ((7 % 256 : Nat) - (manipulateLSB 7 1 : Nat) : Int).natAbs ≤ 1 ∧
    ((((blackImage 1 1).pix 0 0).r : Int) -
      ((embedSecret (blackImage 1 1) [1]).2.pix 0 0).r).natAbs ≤ 1 ∧
    ((((blackImage 1 1).pix 0 0).g : Int) -
      ((embedSecret (blackImage 1 1) [1]).2.pix 0 0).g).natAbs ≤ 1 ∧
    ((((blackImage 1 1).pix 0 0).b : Int) -
      ((embedSecret (blackImage 1 1) [1]).2.pix 0 0).b).natAbs ≤ 1 :=
  C5_lsb_perturbation 7 1 (blackImage 1 1) [1] 0 0 (Or.inr rfl)
    (blackImage_valid8 1 1)

/-- Claim C6, counterexample: for the one-character secret `"Ā"`
(codepoint 256, a two-byte character), `%.8b` prints nine binary digits,
so the serialized bitstream has 113 bits — not a multiple of 8 and not
`8*(len+13)`; the claim is false for secrets with characters beyond one
byte. -/
theorem C6_counterexample :
    (loadSecret [256]).length = 113 ∧
    ¬ (loadSecret [256]).length % 8 = 0 ∧
    ¬ (loadSecret [256]).length = 8 * ((1 : Nat) + 13) := by
  exact ⟨by decide, by decide, by decide⟩

/-- Claim C6 (amended): for every secret whose characters are single
bytes (codepoints below 256), serialization appends the sentinel and
expands each byte into its 8 bits most-significant-bit first; the
length is `8*(len(secret)+13)`, a multiple of 8. -/
theorem C6_serialize_amended (secret : List Nat)
    (h : ∀ c ∈ secret, c < 256) :
    loadSecret secret = (secret ++ stopSteg).flatMap byteBits ∧
    (loadSecret secret).length = 8 * (secret.length + 13) ∧
    (loadSecret secret).length % 8 = 0 :=
  ⟨loadSecret_eq secret h, loadSecret_length secret h,
   by rw [loadSecret_length secret h]; omega⟩

/-- Claim C6 witness at `"Karl"`. -/
theorem C6_serialize_witness :
    loadSecret karlStr = (karlStr ++ stopSteg).flatMap byteBits ∧
    (loadSecret karlStr).length = 8 * (karlStr.length + 13) ∧
    (loadSecret karlStr).length % 8 = 0 :=
  C6_serialize_amended karlStr (by decide)

/-- Claim C7: when the decoded candidate text exists, extraction
returns the substring before the first occurrence of the sentinel if
the sentinel occurs (even when it came from inside the user's secret —
the first occurrence is authoritative), and fails with
`SentinelNotFound` when the sentinel occurs nowhere; there is no
partial recovery. -/
theorem C7_sentinel_scan (img : RGBAImage) (tmp : List Nat)
    (h : bitsToString (extractBits img) = some tmp) :
    (∀ p, findSub stopSteg tmp = some p →
      getSecretString img = some (Except.ok (tmp.take p)) ∧
      occursAt tmp stopSteg p ∧ ∀ q, q < p → ¬ occursAt tmp stopSteg q) ∧
    (findSub stopSteg tmp = none →
      getSecretString img =
        some (Except.error "error finding embedded secret string") ∧
      ∀ q, ¬ occursAt tmp stopSteg q) := by
  constructor
  · intro p hp
    refine ⟨?_, (findSub_some_occurs tmp stopSteg p hp).1,
      (findSub_some_occurs tmp stopSteg p hp).2⟩
    unfold getSecretString
    rw [h, Option.map_some']
    rw [hp]
  · intro hp
    refine ⟨?_, findSub_none_not_occurs tmp stopSteg hp⟩
    unfold getSecretString
    rw [h, Option.map_some']
    rw [hp]

/-- Claim C7 witness: a clean 1x7 black buffer decodes to six zero
bytes, the sentinel occurs nowhere, and extraction fails with the
`SentinelNotFound` error. -/
theorem C7_sentinel_scan_witness :
    getSecretString (blackImage 1 7) =
      some (Except.error "error finding embedded secret string") :=
  ((C7_sentinel_scan (blackImage 1 7) [0, 0, 0, 0, 0, 0] (by decide)).2
    (by decide)).1

/-- Claim C8: the extraction scan accumulates three bits per visited
pixel over the inclusive ranges, `3*(w+1)*(h+1)` in total, and the
byte-regrouping of `bitsToString` is total (no slice reaches past the
end of the accumulated bits) exactly when that total is a multiple of
8. -/
theorem C8_regroup_totality (img : RGBAImage) :
    (extractBits img).length =
      3 * ((img.maxX - img.minX + 1).toNat *
        (img.maxY - img.minY + 1).toNat) ∧
    ((bitsToString (extractBits img)).isSome ↔
      (extractBits img).length % 8 = 0) :=
  ⟨extractBits_length img, bitsToString_isSome_iff _⟩

/-- Claim C9: embedding with no loaded source buffer fails with
`NoImageLoaded`, before any capacity check, serialization or pixel
write — `createMutableImage` itself already returns the error. -/
theorem C9_no_image_loaded (secret : List Nat) :
    DoStegEmbed none secret = Except.error "no image loaded" ∧
    createMutableImage none = Except.error "no image loaded" :=
  ⟨rfl, rfl⟩

/-- Claim C10: embedding never changes the alpha channel of any pixel
(the written value is the source alpha normalized through the 16-bit
scaling and back), and a pixel can differ from the source only when it
was visited with payload bits remaining. -/
theorem C10_alpha_preserved (img : RGBAImage) (bits : List Nat) (x y : Int)
    (hV : Valid8 img) :
    ((embedSecret img bits).2.pix x y).a = (img.pix x y).a ∧
    ((embedSecret img bits).2.pix x y ≠ img.pix x y →
      img.minX ≤ x ∧ x < img.maxX ∧ img.minY ≤ y ∧ y < img.maxY ∧
      3 * ((img.maxY - img.minY).toNat * (x - img.minX).toNat +
        (y - img.minY).toNat) < bits.length) := by
  obtain ⟨hr8, hg8, hb8, ha8⟩ := hV x y
  by_cases hcap : (bits.length : Int) > img.maxX * img.maxY * 3
  · rw [embedSecret_snd_err img bits hcap]
    exact ⟨rfl, fun h => absurd rfl h⟩
  · rw [embedSecret_pix img bits hcap x y]
    by_cases hc : img.minX ≤ x ∧ x < img.maxX ∧ img.minY ≤ y ∧ y < img.maxY ∧
        3 * ((img.maxY - img.minY).toNat * (x - img.minX).toNat +
          (y - img.minY).toNat) < bits.length
    · rw [if_pos hc]
      refine ⟨?_, fun _ => hc⟩
      rw [embedChan_a]
      have := mul257_div257 (img.pix x y).a
      omega
    · rw [if_neg hc]
      exact ⟨rfl, fun h => absurd rfl h⟩

/-- Claim C10 witness: the alpha of the first pixel of a 1x1 black
buffer is unchanged by an embedding. -/
theorem C10_alpha_preserved_witness :
    ((embedSecret (blackImage 1 1) [1]).2.pix 0 0).a =
      ((blackImage 1 1).pix 0 0).a :=
  (C10_alpha_preserved (blackImage 1 1) [1] 0 0 (blackImage_valid8 1 1)).1

/-- Claim C8 witness at a 1x1 buffer: 12 extracted bits, not a multiple
of 8, so the regrouping is not total. -/
theorem C8_regroup_totality_witness :
    (extractBits (blackImage 1 1)).length =
      3 * (((blackImage 1 1).maxX - (blackImage 1 1).minX + 1).toNat *
        ((blackImage 1 1).maxY - (blackImage 1 1).minY + 1).toNat) ∧
    ((bitsToString (extractBits (blackImage 1 1))).isSome ↔
      (extractBits (blackImage 1 1)).length % 8 = 0) :=
  C8_regroup_totality (blackImage 1 1)

/-- Claim C9 witness at the secret `"Karl"`. -/
theorem C9_no_image_loaded_witness :
    DoStegEmbed none karlStr = Except.error "no image loaded" ∧
    createMutableImage none = Except.error "no image loaded" :=
  C9_no_image_loaded karlStr
